import Mathlib

/-
Verification development for the `mate` time tracker.

The Go source keeps an append-only CSV ledger of timestamped title events
and derives segments, per-ticket totals and the current status from it.
This file embeds the core data model and operations:

* `Record`           — one ledger event (`timestamp` in whole seconds, `title`);
* `computeEntriesDuration` — the segment engine (durations in nanoseconds,
  as Go `time.Duration` values);
* `filterStops`, `groupDurations`, `computeTotalTime` — the aggregator;
* `stopTicket`, `restartLastTicket`, `getLastTicketTitle` — the session
  controller, modelled on the in-memory record list;
* a character-level model of the CSV file layer (`writeTicket`'s record
  serialization and `getRecords`' read path through Go's `encoding/csv`
  reader with default options).

Machine arithmetic: Go `time.Duration` is an `int64` of nanoseconds.
Additions of durations are modelled with two's-complement wraparound
(`addDur`), and `time.Time.Sub`'s overflow saturation is modelled in
`goSub`.  Timestamps parsed from the log's `YYYY/MM/DD hh:mm:ss` format
are whole seconds, carried as `Int`.
-/

namespace Mate

/-- The reserved sentinel title written by `stopTicket` (Go: `STOP_TOKEN`). -/
def STOP_TOKEN : String := "mate:STOP"

/-- Nanoseconds per second; Go durations are int64 nanosecond counts. -/
def nsPerSec : Int := 1000000000

/-- `2^63`, the magnitude bound of int64. -/
def halfI64 : Int := 9223372036854775808

/-- `2^64`, the modulus of int64 arithmetic. -/
def i64Mod : Int := 18446744073709551616

/-- Largest int64 value (`math.MaxInt64`, Go's `maxDuration`). -/
def maxI64 : Int := 9223372036854775807

/-- Smallest int64 value (`math.MinInt64`, Go's `minDuration`). -/
def minI64 : Int := -9223372036854775808

/-- Whether an integer is representable as an int64. -/
def inI64 (x : Int) : Prop := minI64 ≤ x ∧ x ≤ maxI64

instance (x : Int) : Decidable (inI64 x) := by
  unfold inI64; infer_instance

/-- Two's-complement reduction of an integer into the int64 range. -/
def wrap64 (x : Int) : Int := (x + halfI64) % i64Mod - halfI64

/-- Go int64 addition (wraparound on overflow), used for duration sums. -/
def addDur (a b : Int) : Int := wrap64 (a + b)

/-- Go `time.Time.Sub` for two instants given in whole seconds: the exact
difference in nanoseconds when it is representable as an int64, otherwise
saturation to `minDuration`/`maxDuration` (Go checks `t.Before(u)`). -/
def goSub (t u : Int) : Int :=
  if inI64 ((t - u) * nsPerSec) then (t - u) * nsPerSec
  else if t < u then minI64 else maxI64

/-- One ledger event: a parse of one CSV data line (Go: `Record`). -/
structure Record where
  timestamp : Int
  title : String
  deriving DecidableEq, Repr

/-- One derived work segment (Go: the anonymous `{title, duration}` struct);
`duration` is in nanoseconds. -/
structure Ticket where
  title : String
  duration : Int
  deriving DecidableEq, Repr

/-- The loop body of `computeEntriesDuration`: walking the remaining records
with the previous record's title and timestamp as loop state, emitting one
segment per adjacent pair. -/
def cedLoop (cur : String) (start : Int) : List Record → List Ticket
  | [] => []
  | r :: rest =>
    { title := cur, duration := goSub r.timestamp start } :: cedLoop r.title r.timestamp rest

/-- Go `computeEntriesDuration`: one segment per adjacent pair of records
(the loop), plus an open trailing segment against `now` when the last
record's title is not the STOP sentinel.  `now` is the current instant in
whole seconds (the Go code formats `time.Now()` with `TIME_FORMAT` and
re-parses it, see `nowFromClock`); after the loop Go's `startTime` variable
holds the last record's timestamp. -/
def computeEntriesDuration (records : List Record) (now : Int) : List Ticket :=
  match records with
  | [] => []
  | r0 :: rest =>
    let body := cedLoop r0.title r0.timestamp rest
    let last := (r0 :: rest).getLast (List.cons_ne_nil r0 rest)
    if last.title ≠ STOP_TOKEN then
      body ++ [{ title := last.title, duration := goSub now last.timestamp }]
    else body

/-- Spec-side description of the adjacent-pair segments: for every adjacent
pair `(a, b)` of the input, the segment `{title := a.title, duration :=
b.timestamp - a.timestamp}`, in input order. -/
def pairSegments (rs : List Record) : List Ticket :=
  (rs.zip rs.tail).map fun p =>
    { title := p.1.title, duration := goSub p.2.timestamp p.1.timestamp }

/-- Spec-side description of the trailing open segment: present exactly when
the input is non-empty and its last title is not the STOP sentinel. -/
def trailingSeg (rs : List Record) (now : Int) : List Ticket :=
  match rs.getLast? with
  | none => []
  | some last =>
    if last.title ≠ STOP_TOKEN then
      [{ title := last.title, duration := goSub now last.timestamp }]
    else []

/-- Outcome reported by `stopTicket`. -/
inductive StopOutcome where
  | stopped (title : String)
  | notWorking
  deriving DecidableEq, Repr

/-- Go `stopTicket` on the in-memory record list: when the ledger is
non-empty and its last title is not the STOP sentinel (`working`), append a
STOP record timestamped `now` and report the stopped title; otherwise leave
the ledger unchanged and report not working. -/
def stopTicket (records : List Record) (now : Int) : StopOutcome × List Record :=
  match records.getLast? with
  | some last =>
    if last.title ≠ STOP_TOKEN then
      (StopOutcome.stopped last.title, records ++ [{ timestamp := now, title := STOP_TOKEN }])
    else (StopOutcome.notWorking, records)
  | none => (StopOutcome.notWorking, records)

/-- Outcome of `restartLastTicket` (Go reports the first three by printing
and exiting non-zero; `started` corresponds to the `startTicket` call). -/
inductive ResumeOutcome where
  | noHistoryError
  | noPreviousTicketError
  | alreadyWorkingError (title : String)
  | started (title : String)
  deriving DecidableEq, Repr

instance : Inhabited Record := ⟨{ timestamp := 0, title := "" }⟩

/-- Go `restartLastTicket`: the switch on the number of records, consulting
`records[n-1]` and `records[n-2]`; the only mutating branch is the
`startTicket (penultimate.title)` call, which appends one record. -/
def restartLastTicket (records : List Record) (now : Int) : ResumeOutcome × List Record :=
  let n := records.length
  if n = 0 then (ResumeOutcome.noHistoryError, records)
  else if n = 1 then
    if (records.getD 0 default).title = STOP_TOKEN then
      (ResumeOutcome.noPreviousTicketError, records)
    else (ResumeOutcome.alreadyWorkingError (records.getD 0 default).title, records)
  else
    let last := records.getD (n - 1) default
    if last.title = STOP_TOKEN then
      let penultimate := records.getD (n - 2) default
      if penultimate.title = STOP_TOKEN then (ResumeOutcome.noPreviousTicketError, records)
      else (ResumeOutcome.started penultimate.title,
            records ++ [{ timestamp := now, title := penultimate.title }])
    else (ResumeOutcome.alreadyWorkingError last.title, records)

/-- Spec-side description of `resumeLast`'s case analysis, following the
claim's wording: empty history, a single event, and the last/second-to-last
inspection for longer histories. -/
def resumeSpec (records : List Record) (now : Int) : ResumeOutcome × List Record :=
  match records.getLast? with
  | none => (ResumeOutcome.noHistoryError, records)
  | some last =>
    if records.length = 1 then
      if last.title = STOP_TOKEN then (ResumeOutcome.noPreviousTicketError, records)
      else (ResumeOutcome.alreadyWorkingError last.title, records)
    else if last.title ≠ STOP_TOKEN then (ResumeOutcome.alreadyWorkingError last.title, records)
    else
      match records.dropLast.getLast? with
      | none => (ResumeOutcome.noPreviousTicketError, records)
      | some penultimate =>
        if penultimate.title = STOP_TOKEN then (ResumeOutcome.noPreviousTicketError, records)
        else (ResumeOutcome.started penultimate.title,
              records ++ [{ timestamp := now, title := penultimate.title }])

/-- Go `getLastTicketTitle`: the STOP sentinel on an empty ledger, else the
last record's title. -/
def getLastTicketTitle (records : List Record) : String :=
  match records.getLast? with
  | none => STOP_TOKEN
  | some last => last.title

/-- Go `filterStops`: drop every segment whose title is the STOP sentinel,
keeping the order of the rest. -/
def filterStops (tickets : List Ticket) : List Ticket :=
  tickets.filter fun t => t.title ≠ STOP_TOKEN

/-- One step of Go's `groupedTickets[t.title] += t.duration` on the map,
modelled as an association list keyed by title: add to the existing entry,
or insert the map's zero value plus the duration for a fresh key. -/
def groupUpsert (g : List (String × Int)) (k : String) (d : Int) : List (String × Int) :=
  match g with
  | [] => [(k, addDur 0 d)]
  | (k', v) :: rest =>
    if k' = k then (k', addDur v d) :: rest else (k', v) :: groupUpsert rest k d

/-- Go `groupDurations`: fold the tickets into a title-keyed map of summed
durations (int64 addition). -/
def groupDurations (tickets : List Ticket) : List (String × Int) :=
  tickets.foldl (fun g t => groupUpsert g t.title t.duration) []

/-- Go `computeTotalTime`: `totalTime += t.duration` over all tickets
(int64 addition starting from 0). -/
def computeTotalTime (tickets : List Ticket) : Int :=
  tickets.foldl (fun acc t => addDur acc t.duration) 0

/-- Sum of the values of a grouped map, with the same int64 addition a Go
caller iterating the map would use. -/
def sumValues (g : List (String × Int)) : Int :=
  g.foldl (fun acc p => addDur acc p.2) 0

/-- Model of `time.Parse(TIME_FORMAT, time.Now().Format(TIME_FORMAT))` in
`computeEntriesDuration`: formatting the current instant with a
second-granularity layout and re-parsing it floors it to whole seconds.
`trueNowNs` is the current instant in nanoseconds; the result is in whole
seconds, the unit of `Record` timestamps. -/
def nowFromClock (trueNowNs : Int) : Int := trueNowNs / nsPerSec

/-! ### The CSV file layer

`writeTicket` appends one line `"<now>","<title>"` to the log file and
`getRecords` reads the whole file back through Go's `encoding/csv` reader
(default options: comma separator, strict quoting, no comment character),
skips the header row and parses each row's first field as a timestamp.
The file content is modelled as a `List Char`; the reader model follows
Go's `csv.Reader`: quoted fields with `""` escapes that may span lines,
unquoted fields ending at a comma or end of line, a bare quote in an
unquoted field and an unescaped quote in a quoted field are errors, every
`\r\n` in the input is normalized to `\n` (Go's `readLine`), lines that
are only a newline are skipped between records, and every record must
have as many fields as the first one (`ErrFieldCount`).  `none` stands
for any fatal outcome of the Go code (`log.Fatal` on a parse error). -/

/-- The header line written when the log file is created (Go: `CSV_HEADER`). -/
def CSV_HEADER : List Char := ("timestamp,title\n").data

/-- The line `writeTicket` builds: both fields wrapped in double quotes —
with no escaping of the field contents — then a newline. -/
def serializeRecordL (a b : List Char) : List Char :=
  '"' :: (a ++ ('"' :: ',' :: '"' :: (b ++ ['"', '\n'])))

/-- `writeTicket`'s appended line for a formatted timestamp and a title. -/
def serializeRecord (nowStr title : String) : List Char :=
  serializeRecordL nowStr.data title.data

/-- Quoted-field parsing, entered after the opening quote (Go's quoted
branch of `parseField`): `""` escapes a quote, a closing quote must be
followed by the separator or the end of the line/input, `\r\n` is read as
`\n`, and an unescaped quote or end of input inside the field is an error. -/
def parseQuoted : List Char → Option (List Char × List Char × Bool)
  | [] => none
  | ['"'] => some ([], [], true)
  | '"' :: '"' :: rest2 => (parseQuoted rest2).map fun x => ('"' :: x.1, x.2.1, x.2.2)
  | '"' :: ',' :: rest2 => some ([], rest2, false)
  | '"' :: '\n' :: rest2 => some ([], rest2, true)
  | '"' :: '\r' :: '\n' :: rest3 => some ([], rest3, true)
  | '"' :: _ :: _ => none
  | '\r' :: '\n' :: rest2 => (parseQuoted rest2).map fun x => ('\n' :: x.1, x.2.1, x.2.2)
  | c :: rest => (parseQuoted rest).map fun x => (c :: x.1, x.2.1, x.2.2)

/-- Unquoted-field parsing (Go's non-quoted branch): the field runs to the
separator or the end of the line/input, and may not contain a quote. -/
def parseUnquoted : List Char → Option (List Char × List Char × Bool)
  | [] => some ([], [], true)
  | c :: rest =>
    if c = ',' then some ([], rest, false)
    else if c = '\n' then some ([], rest, true)
    else if c = '"' then none
    else if c = '\r' then
      match rest with
      | '\n' :: rest2 => some ([], rest2, true)
      | _ => (parseUnquoted rest).map fun x => (c :: x.1, x.2.1, x.2.2)
    else (parseUnquoted rest).map fun x => (c :: x.1, x.2.1, x.2.2)

/-- One field: quoted when it starts with a double quote, else unquoted. -/
def parseField (l : List Char) : Option (List Char × List Char × Bool) :=
  match l with
  | '"' :: rest => parseQuoted rest
  | _ => parseUnquoted l

/-- One record: fields separated by commas until the end of the line; the
fuel bounds the number of fields (one character is consumed per field, so
`length + 1` always suffices). -/
def parseRecordAux : Nat → List Char → Option (List (List Char) × List Char)
  | 0, _ => none
  | fuel + 1, l =>
    match parseField l with
    | none => none
    | some (f, rest, ended) =>
      if ended then some ([f], rest)
      else
        match parseRecordAux fuel rest with
        | none => none
        | some (fs, rest2) => some (f :: fs, rest2)

/-- Skip lines that are only a newline before each record (Go's
`readRecord` skip of empty lines; `\r\n` has been normalized to `\n`). -/
def skipEmptyLines : List Char → List Char
  | '\n' :: rest => skipEmptyLines rest
  | '\r' :: '\n' :: rest => skipEmptyLines rest
  | l => l

/-- All records of the input (Go `ReadAll` looping `Read` until EOF); the
fuel bounds the number of records. -/
def csvReadAllAux : Nat → List Char → Option (List (List (List Char)))
  | 0, _ => none
  | fuel + 1, l =>
    let l2 := skipEmptyLines l
    if l2 = [] then some []
    else
      match parseRecordAux (l2.length + 1) l2 with
      | none => none
      | some (r, rest) =>
        match csvReadAllAux fuel rest with
        | none => none
        | some rs => some (r :: rs)

/-- Go `csv.Reader.ReadAll` on the whole file content (each record consumes
at least one character, so `length + 1` records of fuel always suffice). -/
def csvReadAll (l : List Char) : Option (List (List (List Char))) :=
  csvReadAllAux (l.length + 1) l

/-- `ReadAll` including Go's `ErrFieldCount` check: every record must have
as many fields as the first one. -/
def readAllChecked (l : List Char) : Option (List (List (List Char))) :=
  match csvReadAll l with
  | none => none
  | some [] => some []
  | some (r :: rs) =>
    if rs.all fun x => x.length = r.length then some (r :: rs) else none

/-- A decimal digit. -/
def isDigitChar (c : Char) : Prop := '0' ≤ c ∧ c ≤ '9'

instance (c : Char) : Decidable (isDigitChar c) := by
  unfold isDigitChar; infer_instance

/-- Numeric value of a decimal digit character. -/
def digitVal (c : Char) : Nat := c.toNat - 48

/-- Gregorian leap year rule, as Go's `time` package applies it. -/
def isLeapYear (y : Nat) : Bool := y % 4 = 0 && (y % 100 ≠ 0 || y % 400 = 0)

/-- Days in a month of a given year (Go validates the day against this). -/
def daysInMonth (y mo : Nat) : Nat :=
  if mo = 2 then (if isLeapYear y then 29 else 28)
  else if mo = 4 ∨ mo = 6 ∨ mo = 9 ∨ mo = 11 then 30
  else 31

/-- Cumulative days before month `mo` in a non-leap year (index 1–12). -/
def daysBeforeMonth (mo : Nat) : Nat :=
  [0, 0, 31, 59, 90, 120, 151, 181, 212, 243, 273, 304, 334].getD mo 0

/-- Leap years strictly before year `y` in the proleptic Gregorian
calendar (year 0 counts as a leap year). -/
def leapsBefore (y : Nat) : Nat :=
  if y = 0 then 0 else (y + 3) / 4 - (y + 99) / 100 + (y + 399) / 400

/-- Seconds since the proleptic-Gregorian reference of a calendar instant;
the absolute offset is irrelevant, only differences of timestamps are. -/
def toSec (y mo d h mi s : Nat) : Int :=
  ((y * 365 + leapsBefore y + daysBeforeMonth mo
      + (if 2 < mo ∧ isLeapYear y then 1 else 0) + (d - 1)) * 86400
    + h * 3600 + mi * 60 + s : Nat)

/-- Go `time.Parse` with the layout `2006/01/02 15:04:05`: exactly 19
characters, zero-padded decimal fields with the layout's separators, and
range validation of month, day (against the month and year), hour, minute
and second.  Returns the instant in whole seconds. -/
def parseTimestampL (l : List Char) : Option Int :=
  match l with
  | [y1, y2, y3, y4, c1, o1, o2, c2, d1, d2, c3, h1, h2, c4, i1, i2, c5, s1, s2] =>
    if c1 = '/' ∧ c2 = '/' ∧ c3 = ' ' ∧ c4 = ':' ∧ c5 = ':' ∧
       isDigitChar y1 ∧ isDigitChar y2 ∧ isDigitChar y3 ∧ isDigitChar y4 ∧
       isDigitChar o1 ∧ isDigitChar o2 ∧ isDigitChar d1 ∧ isDigitChar d2 ∧
       isDigitChar h1 ∧ isDigitChar h2 ∧ isDigitChar i1 ∧ isDigitChar i2 ∧
       isDigitChar s1 ∧ isDigitChar s2 then
      let y := ((digitVal y1 * 10 + digitVal y2) * 10 + digitVal y3) * 10 + digitVal y4
      let mo := digitVal o1 * 10 + digitVal o2
      let d := digitVal d1 * 10 + digitVal d2
      let h := digitVal h1 * 10 + digitVal h2
      let mi := digitVal i1 * 10 + digitVal i2
      let s := digitVal s1 * 10 + digitVal s2
      if 1 ≤ mo ∧ mo ≤ 12 ∧ 1 ≤ d ∧ d ≤ daysInMonth y mo ∧ h ≤ 23 ∧ mi ≤ 59 ∧ s ≤ 59 then
        some (toSec y mo d h mi s)
      else none
    else none
  | _ => none

/-- Timestamp parsing on a string, as `getRecords` applies it per row. -/
def parseTimestamp (s : String) : Option Int := parseTimestampL s.data

/-- One data row to a `Record` (Go indexes `rawRecord[0]` and
`rawRecord[1]`; a failing timestamp parse is fatal). -/
def rowToRecord (row : List (List Char)) : Option Record :=
  match row with
  | ts :: title :: _ =>
    (parseTimestampL ts).map fun n => { timestamp := n, title := String.mk title }
  | _ => none

/-- The record-building loop of `getRecords` over the non-header rows,
fatal on the first bad row. -/
def recordsFromRows : List (List (List Char)) → Option (List Record)
  | [] => some []
  | row :: rest =>
    match rowToRecord row with
    | none => none
    | some r =>
      match recordsFromRows rest with
      | none => none
      | some rs => some (r :: rs)

/-- Go `getRecords` on a file content: CSV-read every row, skip the header
row (index 0), and parse each remaining row into a `Record`. -/
def getRecords (file : List Char) : Option (List Record) :=
  match readAllChecked file with
  | none => none
  | some [] => some []
  | some (_header :: rows) => recordsFromRows rows

/-- No character of the list is a double quote (`writeTicket` does not
escape quotes, so a quote inside a field changes or breaks the read-back). -/
def quoteFree (l : List Char) : Prop := ∀ c ∈ l, c ≠ '"'

instance (l : List Char) : Decidable (quoteFree l) := by
  unfold quoteFree; infer_instance

/-- Whether the list contains a carriage return immediately followed by a
line feed; the reader normalizes every such pair to a line feed. -/
def hasCRLF : List Char → Bool
  | '\r' :: '\n' :: _ => true
  | _ :: rest => hasCRLF rest
  | [] => false

/-- Characters that a quoted CSV field returns unchanged through the
round trip: no double quote and no CRLF pair (commas, line feeds and lone
carriage returns are all preserved). -/
def safeChars (l : List Char) : Prop := quoteFree l ∧ hasCRLF l = false

instance (l : List Char) : Decidable (safeChars l) := by
  unfold safeChars; infer_instance

/-- A string whose characters survive the CSV round trip unchanged. -/
def safeStr (s : String) : Prop := safeChars s.data

instance (s : String) : Decidable (safeStr s) := by
  unfold safeStr; infer_instance

/-- The data lines of a ledger whose rows are (timestamp string, title)
pairs, as successive `writeTicket` calls produce them. -/
def linesOf (rows : List (String × String)) : List Char :=
  (rows.map fun p => serializeRecord p.1 p.2).flatten

/-- A full log file: the header line, then one line per appended record. -/
def ledgerFile (rows : List (String × String)) : List Char :=
  CSV_HEADER ++ linesOf rows

/-- Mathematical (unwrapped) sum of the values of a grouped map; proof
device for relating the two int64 sums. -/
def sumSnd (g : List (String × Int)) : Int :=
  (g.map Prod.snd).sum

/-! ### Helper lemmas -/

theorem cedLoop_eq_pairSegments (rest : List Record) (t : String) (s : Int) :
    cedLoop t s rest = pairSegments ({ timestamp := s, title := t } :: rest) := by
  induction rest generalizing t s with
  | nil => rfl
  | cons r rest ih =>
    simp only [cedLoop, pairSegments, List.tail_cons, List.zip_cons_cons, List.map_cons]
    refine congrArg _ ?_
    simpa [pairSegments] using ih r.title r.timestamp

/-- The segment engine equals its spec-side description: pair segments in
input order, then the trailing open segment exactly when due. -/
theorem computeEntriesDuration_eq (rs : List Record) (now : Int) :
    computeEntriesDuration rs now = pairSegments rs ++ trailingSeg rs now := by
  cases rs with
  | nil => rfl
  | cons r0 rest =>
    have hbody : cedLoop r0.title r0.timestamp rest = pairSegments (r0 :: rest) := by
      simpa using cedLoop_eq_pairSegments rest r0.title r0.timestamp
    have hlast : (r0 :: rest).getLast? = some ((r0 :: rest).getLast (List.cons_ne_nil r0 rest)) :=
      List.getLast?_eq_getLast _ _
    simp only [computeEntriesDuration, trailingSeg, hbody, hlast]
    by_cases h : ((r0 :: rest).getLast (List.cons_ne_nil r0 rest)).title ≠ STOP_TOKEN
    · simp [h]
    · simp [h]

theorem getD_length_sub_one (l : List Record) (h : l ≠ []) :
    l.getD (l.length - 1) default = l.getLast h := by
  have hlt : l.length - 1 < l.length := by
    cases l with
    | nil => exact absurd rfl h
    | cons a t => simp
  rw [List.getD_eq_getElem _ _ hlt, List.getLast_eq_getElem]

theorem getD_length_sub_two (l : List Record) (h : 2 ≤ l.length) :
    l.getD (l.length - 2) default =
      l.dropLast.getLast (by
        have : l.dropLast.length = l.length - 1 := List.length_dropLast l
        exact List.ne_nil_of_length_pos (by omega)) := by
  have hlt : l.length - 2 < l.length := by omega
  have hd : l.dropLast.length = l.length - 1 := List.length_dropLast l
  have hlt2 : l.dropLast.length - 1 < l.dropLast.length := by omega
  rw [List.getD_eq_getElem _ _ hlt, List.getLast_eq_getElem]
  rw [List.getElem_dropLast]
  congr 1
  omega

theorem restartLastTicket_eq_resumeSpec (rs : List Record) (now : Int) :
    restartLastTicket rs now = resumeSpec rs now := by
  match rs with
  | [] => rfl
  | [a] =>
    simp [restartLastTicket, resumeSpec]
  | a :: b :: l =>
    have hne : (a :: b :: l) ≠ [] := List.cons_ne_nil _ _
    have hlen2 : 2 ≤ (a :: b :: l).length := by simp
    have hdne : (a :: b :: l).dropLast ≠ [] :=
      List.ne_nil_of_length_pos (by simp)
    have hlast := getD_length_sub_one (a :: b :: l) hne
    have hpen := getD_length_sub_two (a :: b :: l) hlen2
    have hlast? : (a :: b :: l).getLast? = some ((a :: b :: l).getLast hne) :=
      List.getLast?_eq_getLast _ _
    have hdlast? : (a :: b :: l).dropLast.getLast? =
        some ((a :: b :: l).dropLast.getLast hdne) :=
      List.getLast?_eq_getLast _ _
    have hlen0 : ¬ (a :: b :: l).length = 0 := by simp
    have hlen1 : ¬ (a :: b :: l).length = 1 := by simp
    simp only [restartLastTicket, resumeSpec, hlast?, hdlast?, hlen0, hlen1,
      if_false, hlast, hpen]
    by_cases hS : ((a :: b :: l).getLast hne).title = STOP_TOKEN
    · by_cases hP : ((a :: b :: l).dropLast.getLast hdne).title = STOP_TOKEN
      · simp [hS, hP]
      · simp [hS, hP]
    · simp [hS]

theorem wrap64_emod (x : Int) : wrap64 x % i64Mod = x % i64Mod := by
  simp only [wrap64, i64Mod, halfI64]
  omega

theorem wrap64_congr {x y : Int} (h : x % i64Mod = y % i64Mod) : wrap64 x = wrap64 y := by
  simp only [i64Mod] at h
  simp only [wrap64, i64Mod, halfI64]
  omega

theorem emod_add_congr (A B s : Int) (h : A % i64Mod = B % i64Mod) :
    (A + s) % i64Mod = (B + s) % i64Mod := by
  rw [Int.add_emod, h, ← Int.add_emod]

theorem foldl_addDur_map {α : Type} (f : α → Int) (l : List α) :
    ∀ a : Int, l ≠ [] →
      l.foldl (fun acc x => addDur acc (f x)) a = wrap64 (a + (l.map f).sum) := by
  induction l with
  | nil => intro a h; exact absurd rfl h
  | cons x t ih =>
    intro a _
    cases t with
    | nil => simp [addDur]
    | cons y u =>
      rw [List.foldl_cons, ih (addDur a (f x)) (List.cons_ne_nil _ _)]
      apply wrap64_congr
      simp only [List.map_cons, List.sum_cons]
      simp only [addDur, wrap64, i64Mod, halfI64]
      omega

theorem sumSnd_groupUpsert (g : List (String × Int)) (k : String) (d : Int) :
    sumSnd (groupUpsert g k d) % i64Mod = (sumSnd g + d) % i64Mod := by
  induction g with
  | nil =>
    simp only [groupUpsert, sumSnd, List.map_cons, List.map_nil, List.sum_cons,
      List.sum_nil, addDur, wrap64, i64Mod, halfI64]
    omega
  | cons p rest ih =>
    obtain ⟨k', v⟩ := p
    by_cases hk : k' = k
    · simp only [groupUpsert, if_pos hk, sumSnd, List.map_cons, List.sum_cons,
        addDur, wrap64, i64Mod, halfI64]
      omega
    · simp only [groupUpsert, if_neg hk, sumSnd, List.map_cons, List.sum_cons]
      simp only [sumSnd] at ih
      simp only [addDur, wrap64, i64Mod, halfI64] at ih ⊢
      omega

theorem sumSnd_groupFold (l : List Ticket) :
    ∀ g : List (String × Int),
      sumSnd (l.foldl (fun g t => groupUpsert g t.title t.duration) g) % i64Mod
        = (sumSnd g + (l.map Ticket.duration).sum) % i64Mod := by
  induction l with
  | nil => intro g; simp
  | cons t rest ih =>
    intro g
    rw [List.foldl_cons]
    have h1 := ih (groupUpsert g t.title t.duration)
    have h2 := sumSnd_groupUpsert g t.title t.duration
    simp only [List.map_cons, List.sum_cons]
    simp only [i64Mod] at h1 h2 ⊢
    omega

theorem groupUpsert_ne_nil (g : List (String × Int)) (k : String) (d : Int) :
    groupUpsert g k d ≠ [] := by
  cases g with
  | nil => simp [groupUpsert]
  | cons p rest =>
    obtain ⟨k', v⟩ := p
    by_cases hk : k' = k <;> simp [groupUpsert, hk]

theorem groupFold_ne_nil (l : List Ticket) :
    ∀ g : List (String × Int), g ≠ [] →
      l.foldl (fun g t => groupUpsert g t.title t.duration) g ≠ [] := by
  induction l with
  | nil => intro g h; simpa using h
  | cons t rest ih =>
    intro g _
    rw [List.foldl_cons]
    exact ih _ (groupUpsert_ne_nil _ _ _)

/-- Conservation for an arbitrary ticket list: the int64 total of the
durations equals the int64 sum of the grouped map's values. -/
theorem totalTime_eq_sumValues_group (l : List Ticket) :
    computeTotalTime l = sumValues (groupDurations l) := by
  cases l with
  | nil => rfl
  | cons t rest =>
    have hgne : groupDurations (t :: rest) ≠ [] := by
      unfold groupDurations
      rw [List.foldl_cons]
      exact groupFold_ne_nil rest _ (groupUpsert_ne_nil _ _ _)
    have hl : computeTotalTime (t :: rest)
        = wrap64 (0 + ((t :: rest).map Ticket.duration).sum) :=
      foldl_addDur_map Ticket.duration (t :: rest) 0 (List.cons_ne_nil _ _)
    have hr : sumValues (groupDurations (t :: rest))
        = wrap64 (0 + ((groupDurations (t :: rest)).map Prod.snd).sum) :=
      foldl_addDur_map Prod.snd (groupDurations (t :: rest)) 0 hgne
    rw [hl, hr]
    apply wrap64_congr
    have h := sumSnd_groupFold (t :: rest) []
    simp only [groupDurations] at h ⊢
    simp only [sumSnd, List.map_nil, List.sum_nil] at h
    simp only [i64Mod] at h ⊢
    omega

theorem goSub_nonneg {t u : Int} (h : u ≤ t) : 0 ≤ goSub t u := by
  unfold goSub
  split_ifs with h1 h2
  · exact mul_nonneg (by omega) (by norm_num [nsPerSec])
  · exact absurd h2 (not_lt.mpr h)
  · norm_num [maxI64]

theorem pairSegments_nonneg (rs : List Record)
    (h : List.Chain' (fun a b => a.timestamp ≤ b.timestamp) rs) :
    ∀ t ∈ pairSegments rs, 0 ≤ t.duration := by
  induction rs with
  | nil => simp [pairSegments]
  | cons a rest ih =>
    cases rest with
    | nil => simp [pairSegments]
    | cons b u =>
      rw [List.chain'_cons] at h
      intro t ht
      simp only [pairSegments, List.tail_cons, List.zip_cons_cons, List.map_cons,
        List.mem_cons] at ht
      rcases ht with rfl | ht
      · exact goSub_nonneg h.1
      · exact ih h.2 t (by simpa [pairSegments] using ht)

/-! ### Claim theorems -/

/-- C1: `computeSegments(events, now)` returns exactly one segment per
adjacent pair of events (title of the earlier event, duration the timestamp
difference), in input order and even when the earlier title is the STOP
sentinel, plus one trailing segment `{last.title, now - last.timestamp}`
exactly when the input is non-empty and the last title is not the STOP
sentinel; empty input yields empty output. -/
theorem computeSegments_pairs_and_trailing (rs : List Record) (now : Int) :
    computeEntriesDuration rs now = pairSegments rs ++ trailingSeg rs now :=
  computeEntriesDuration_eq rs now

/-- C2: `resumeLast()` performs exactly the claimed case analysis on the
record list: empty history fails with no-history; a single event fails with
no-previous-ticket when it is STOP and already-working otherwise; with two
or more events, a non-STOP last title fails with already-working, a STOP
last title with a STOP second-to-last fails with no-previous-ticket, and a
STOP last title with a non-STOP second-to-last starts that title, appending
it as the new last event. -/
theorem resumeLast_case_analysis (rs : List Record) (now : Int) :
    restartLastTicket rs now = resumeSpec rs now :=
  restartLastTicket_eq_resumeSpec rs now

/-- C3: `stop()` appends exactly one STOP record and reports the previous
last title when the ledger is non-empty with a non-STOP last title; when
idle it appends nothing and reports not working; and a second consecutive
`stop()` after a successful one is a no-op, so two consecutive calls on a
working ledger append exactly one STOP record in total. -/
theorem stop_appends_once (rs : List Record) (now now2 : Int) :
    (∀ xs last, rs = xs ++ [last] → last.title ≠ STOP_TOKEN →
      stopTicket rs now =
        (StopOutcome.stopped last.title, rs ++ [{ timestamp := now, title := STOP_TOKEN }]) ∧
      stopTicket (rs ++ [{ timestamp := now, title := STOP_TOKEN }]) now2 =
        (StopOutcome.notWorking, rs ++ [{ timestamp := now, title := STOP_TOKEN }])) ∧
    stopTicket ([] : List Record) now = (StopOutcome.notWorking, []) ∧
    (∀ xs last, rs = xs ++ [last] → last.title = STOP_TOKEN →
      stopTicket rs now = (StopOutcome.notWorking, rs)) := by
  refine ⟨?_, rfl, ?_⟩
  · intro xs last hrs hW
    subst hrs
    have h1 : (xs ++ [last]).getLast? = some last := List.getLast?_concat _
    have h2 : ((xs ++ [last]) ++ [({ timestamp := now, title := STOP_TOKEN } : Record)]).getLast?
        = some ({ timestamp := now, title := STOP_TOKEN } : Record) := List.getLast?_concat _
    constructor
    · simp only [stopTicket, h1, if_pos hW]
    · simp only [stopTicket, h2]
      rw [if_neg (by simp)]
  · intro xs last hrs hS
    subst hrs
    have h1 : (xs ++ [last]).getLast? = some last := List.getLast?_concat _
    simp only [stopTicket, h1]
    rw [if_neg (by simp [hS])]

theorem stop_appends_once_witness :
    stopTicket [({ timestamp := 0, title := "A" } : Record)] 5 =
      (StopOutcome.stopped ("A"),
        [{ timestamp := 0, title := "A" }, { timestamp := 5, title := STOP_TOKEN }]) ∧
    stopTicket [({ timestamp := 0, title := "A" } : Record),
        { timestamp := 5, title := STOP_TOKEN }] 9 =
      (StopOutcome.notWorking,
        [{ timestamp := 0, title := "A" }, { timestamp := 5, title := STOP_TOKEN }]) := by
  have h := (stop_appends_once [({ timestamp := 0, title := "A" } : Record)] 5 9).1
    [] { timestamp := 0, title := "A" } rfl (by decide)
  exact ⟨by simpa using h.1, by simpa using h.2⟩

/-- C4 counterexample: the reserved sentinel written and compared by the
code is not the literal string `STOP`. -/
theorem sentinel_not_STOP_literal : STOP_TOKEN ≠ ("STOP") := by decide

/-- C4 (amended): the reserved sentinel title that `stop()` writes and that
the tail inspections and the separator filter compare against is the
literal string `mate:STOP`. -/
theorem sentinel_is_mate_STOP :
    STOP_TOKEN = ("mate:STOP") ∧
    (∀ (rs : List Record) (now : Int),
      (stopTicket rs now).2 =
        if getLastTicketTitle rs ≠ ("mate:STOP") then
          rs ++ [{ timestamp := now, title := ("mate:STOP") }]
        else rs) ∧
    getLastTicketTitle ([] : List Record) = ("mate:STOP") ∧
    (∀ ts : List Ticket, filterStops ts = ts.filter fun t => t.title ≠ ("mate:STOP")) := by
  refine ⟨rfl, ?_, rfl, fun ts => rfl⟩
  intro rs now
  rcases List.eq_nil_or_concat rs with rfl | ⟨xs, a, rfl⟩
  · simp [stopTicket, getLastTicketTitle, STOP_TOKEN]
  · rw [List.concat_eq_append]
    have h1 : (xs ++ [a]).getLast? = some a := List.getLast?_concat _
    simp only [stopTicket, getLastTicketTitle, h1, STOP_TOKEN]
    by_cases hS : a.title = ("mate:STOP")
    · simp [hS]
    · simp [hS]

/-- C6: for every segment list, the int64 total duration of the filtered
segments equals the int64 sum of the values of the per-title grouping of
those filtered segments. -/
theorem conservation_total_vs_grouped (segments : List Ticket) :
    computeTotalTime (filterStops segments)
      = sumValues (groupDurations (filterStops segments)) :=
  totalTime_eq_sumValues_group (filterStops segments)

/-- C7: when the timestamps are non-decreasing, every segment derived from
an adjacent pair of events (the output positions before the possible
trailing segment) has non-negative duration. -/
theorem adjacent_segments_nonneg (rs : List Record) (now : Int)
    (h : List.Chain' (fun a b => a.timestamp ≤ b.timestamp) rs) :
    ∀ t ∈ (computeEntriesDuration rs now).take (rs.length - 1), 0 ≤ t.duration := by
  have hlen : (pairSegments rs).length = rs.length - 1 := by
    simp only [pairSegments, List.length_map, List.length_zip, List.length_tail]
    omega
  rw [computeEntriesDuration_eq, ← hlen, List.take_left]
  exact pairSegments_nonneg rs h

theorem adjacent_segments_nonneg_witness :
    List.Chain' (fun a b => a.timestamp ≤ b.timestamp)
      [({ timestamp := 0, title := "A" } : Record),
       { timestamp := 5, title := STOP_TOKEN }] ∧
    ∀ t ∈ (computeEntriesDuration
        [({ timestamp := 0, title := "A" } : Record),
         { timestamp := 5, title := STOP_TOKEN }] 9).take (2 - 1),
      0 ≤ t.duration :=
  ⟨by rw [List.chain'_pair]; norm_num,
   adjacent_segments_nonneg
     [{ timestamp := 0, title := "A" }, { timestamp := 5, title := STOP_TOKEN }] 9
     (by rw [List.chain'_pair]; norm_num)⟩

/-- C8: `currentStatus()` returns the STOP sentinel on an empty ledger and
the last event's title otherwise. -/
theorem currentStatus_last_or_sentinel :
    getLastTicketTitle ([] : List Record) = STOP_TOKEN ∧
    ∀ (rs : List Record) (r : Record), getLastTicketTitle (rs ++ [r]) = r.title :=
  ⟨rfl, fun rs r => by simp [getLastTicketTitle, List.getLast?_concat]⟩

/-- C10: whenever `resumeLast()` ends in one of its three failure outcomes,
the record list is unchanged. -/
theorem resumeLast_failure_preserves_ledger (rs : List Record) (now : Int)
    (h : (restartLastTicket rs now).1 = ResumeOutcome.noHistoryError ∨
         (restartLastTicket rs now).1 = ResumeOutcome.noPreviousTicketError ∨
         ∃ t, (restartLastTicket rs now).1 = ResumeOutcome.alreadyWorkingError t) :
    (restartLastTicket rs now).2 = rs := by
  unfold restartLastTicket at h ⊢
  dsimp only at h ⊢
  split_ifs at h ⊢ <;> simp_all

theorem resumeLast_failure_preserves_ledger_witness :
    ((restartLastTicket ([] : List Record) 0).1 = ResumeOutcome.noHistoryError ∨
     (restartLastTicket ([] : List Record) 0).1 = ResumeOutcome.noPreviousTicketError ∨
     ∃ t, (restartLastTicket ([] : List Record) 0).1 = ResumeOutcome.alreadyWorkingError t) ∧
    (restartLastTicket ([] : List Record) 0).2 = [] :=
  ⟨Or.inl (by decide), resumeLast_failure_preserves_ledger [] 0 (Or.inl (by decide))⟩

/-- C9: for a non-empty ledger whose last title is not the STOP sentinel,
the trailing open segment's duration is computed against the current
instant truncated to whole seconds, so it is an integral number of seconds
and understates the true elapsed time by at least zero and strictly less
than one second (as long as the span is representable as an int64
nanosecond count, which Go's `Time.Sub` otherwise saturates). -/
theorem trailing_duration_truncated (pre : List Record) (last : Record) (trueNowNs : Int)
    (hlast : last.title ≠ STOP_TOKEN)
    (hfit : inI64 ((nowFromClock trueNowNs - last.timestamp) * nsPerSec)) :
    ∃ d : Int,
      (computeEntriesDuration (pre ++ [last]) (nowFromClock trueNowNs)).getLast? =
        some { title := last.title, duration := d } ∧
      nsPerSec ∣ d ∧
      0 ≤ trueNowNs - last.timestamp * nsPerSec - d ∧
      trueNowNs - last.timestamp * nsPerSec - d < nsPerSec := by
  have hd : goSub (nowFromClock trueNowNs) last.timestamp
      = (nowFromClock trueNowNs - last.timestamp) * nsPerSec := by
    unfold goSub
    rw [if_pos hfit]
  refine ⟨goSub (nowFromClock trueNowNs) last.timestamp, ?_, ?_, ?_, ?_⟩
  · rw [computeEntriesDuration_eq]
    have htr : trailingSeg (pre ++ [last]) (nowFromClock trueNowNs) =
        [{ title := last.title,
           duration := goSub (nowFromClock trueNowNs) last.timestamp }] := by
      simp [trailingSeg, List.getLast?_concat, hlast]
    rw [htr]
    exact List.getLast?_concat _
  · rw [hd]
    exact dvd_mul_left nsPerSec _
  · rw [hd]
    simp only [nowFromClock, nsPerSec]
    omega
  · rw [hd]
    simp only [nowFromClock, nsPerSec]
    omega

theorem trailing_duration_truncated_witness :
    (({ timestamp := 0, title := "A" } : Record).title ≠ STOP_TOKEN ∧
     inI64 ((nowFromClock 5500000000 -
       ({ timestamp := 0, title := "A" } : Record).timestamp) * nsPerSec)) ∧
    ∃ d : Int,
      (computeEntriesDuration ([] ++ [({ timestamp := 0, title := "A" } : Record)])
          (nowFromClock 5500000000)).getLast? =
        some { title := ({ timestamp := 0, title := "A" } : Record).title, duration := d } ∧
      nsPerSec ∣ d ∧
      0 ≤ 5500000000 - ({ timestamp := 0, title := "A" } : Record).timestamp * nsPerSec - d ∧
      5500000000 - ({ timestamp := 0, title := "A" } : Record).timestamp * nsPerSec - d
        < nsPerSec :=
  ⟨⟨by decide, by decide⟩,
   trailing_duration_truncated [] { timestamp := 0, title := "A" } 5500000000
     (by decide) (by decide)⟩

/-! ### CSV layer lemmas -/

theorem parseQuoted_plain (c d : Char) (l : List Char) (h1 : c ≠ '"') (h2 : c ≠ '\r') :
    parseQuoted (c :: d :: l) = (parseQuoted (d :: l)).map fun x => (c :: x.1, x.2.1, x.2.2) := by
  rw [parseQuoted.eq_def]
  split
  · simp_all
  · simp_all
  · simp_all
  · simp_all
  · simp_all
  · simp_all
  · simp_all
  · simp_all
  · rename_i c2 rest2 heq
    injection heq with hc hrest
    subst hc
    subst hrest
    rfl

theorem parseQuoted_cr (d : Char) (l : List Char) (hd : d ≠ '\n') :
    parseQuoted ('\r' :: d :: l)
      = (parseQuoted (d :: l)).map fun x => ('\r' :: x.1, x.2.1, x.2.2) := by
  rw [parseQuoted.eq_def]
  split
  · simp_all
  · simp_all
  · simp_all
  · simp_all
  · simp_all
  · simp_all
  · simp_all
  · simp_all
  · rename_i c2 rest2 heq
    injection heq with hc hrest
    subst hc
    subst hrest
    rfl

theorem hasCRLF_cons (c : Char) (rest : List Char) (h : hasCRLF (c :: rest) = false) :
    hasCRLF rest = false := by
  rw [hasCRLF.eq_def] at h
  split at h
  · simp_all
  · rename_i x rest2 heq
    injection heq with h1 h2
    subst h2
    exact h
  · rename_i heq
    exact absurd heq (by simp)

theorem hasCRLF_cr_ne (d : Char) (l : List Char) (h : hasCRLF ('\r' :: d :: l) = false) :
    d ≠ '\n' := by
  intro hd
  subst hd
  rw [show hasCRLF ('\r' :: '\n' :: l) = true from rfl] at h
  exact absurd h (by simp)

theorem parseQuoted_clean_comma (u : List Char) (hq : quoteFree u)
    (hcr : hasCRLF u = false) (tail : List Char) :
    parseQuoted (u ++ ('"' :: ',' :: tail)) = some (u, tail, false) := by
  induction u with
  | nil => rfl
  | cons c u ih =>
    have hq2 : quoteFree u := fun x hx => hq x (List.mem_cons_of_mem c hx)
    have hcr2 : hasCRLF u = false := hasCRLF_cons c u hcr
    have hcq : c ≠ '"' := hq c (List.mem_cons_self c u)
    by_cases hc : c = '\r'
    · subst hc
      cases u with
      | nil =>
        rw [List.cons_append, List.nil_append, parseQuoted_cr '"' (',' :: tail) (by decide)]
        rfl
      | cons d u2 =>
        have hd : d ≠ '\n' := hasCRLF_cr_ne d u2 hcr
        rw [List.cons_append, List.cons_append,
          parseQuoted_cr d (u2 ++ ('"' :: ',' :: tail)) hd,
          show d :: (u2 ++ ('"' :: ',' :: tail)) = (d :: u2) ++ ('"' :: ',' :: tail) from rfl,
          ih hq2 hcr2]
        rfl
    · obtain ⟨d, l, hdl⟩ : ∃ d l, u ++ ('"' :: ',' :: tail) = d :: l := by
        cases hx : u ++ ('"' :: ',' :: tail) with
        | nil => exact absurd hx (by simp)
        | cons d l => exact ⟨d, l, rfl⟩
      rw [List.cons_append, hdl, parseQuoted_plain c d l hcq hc, ← hdl, ih hq2 hcr2]
      rfl

theorem parseQuoted_clean_nl (u : List Char) (hq : quoteFree u)
    (hcr : hasCRLF u = false) (tail : List Char) :
    parseQuoted (u ++ ('"' :: '\n' :: tail)) = some (u, tail, true) := by
  induction u with
  | nil => rfl
  | cons c u ih =>
    have hq2 : quoteFree u := fun x hx => hq x (List.mem_cons_of_mem c hx)
    have hcr2 : hasCRLF u = false := hasCRLF_cons c u hcr
    have hcq : c ≠ '"' := hq c (List.mem_cons_self c u)
    by_cases hc : c = '\r'
    · subst hc
      cases u with
      | nil =>
        rw [List.cons_append, List.nil_append, parseQuoted_cr '"' ('\n' :: tail) (by decide)]
        rfl
      | cons d u2 =>
        have hd : d ≠ '\n' := hasCRLF_cr_ne d u2 hcr
        rw [List.cons_append, List.cons_append,
          parseQuoted_cr d (u2 ++ ('"' :: '\n' :: tail)) hd,
          show d :: (u2 ++ ('"' :: '\n' :: tail)) = (d :: u2) ++ ('"' :: '\n' :: tail) from rfl,
          ih hq2 hcr2]
        rfl
    · obtain ⟨d, l, hdl⟩ : ∃ d l, u ++ ('"' :: '\n' :: tail) = d :: l := by
        cases hx : u ++ ('"' :: '\n' :: tail) with
        | nil => exact absurd hx (by simp)
        | cons d l => exact ⟨d, l, rfl⟩
      rw [List.cons_append, hdl, parseQuoted_plain c d l hcq hc, ← hdl, ih hq2 hcr2]
      rfl

theorem parseRecordAux_step_more (fuel : Nat) (l f rest : List Char)
    (hres : parseField l = some (f, rest, false)) :
    parseRecordAux (fuel + 1) l =
      match parseRecordAux fuel rest with
      | none => none
      | some (fs, rest2) => some (f :: fs, rest2) := by
  simp only [parseRecordAux]
  rw [hres]
  rfl

theorem parseRecordAux_step_end (fuel : Nat) (l f rest : List Char)
    (hres : parseField l = some (f, rest, true)) :
    parseRecordAux (fuel + 1) l = some ([f], rest) := by
  simp only [parseRecordAux]
  rw [hres]
  rfl

theorem parseRecordAux_line (a b : List Char) (ha : safeChars a) (hb : safeChars b)
    (tail : List Char) (fuel : Nat) (hf : 2 ≤ fuel) :
    parseRecordAux fuel (serializeRecordL a b ++ tail) = some ([a, b], tail) := by
  obtain ⟨n, rfl⟩ : ∃ n, fuel = n + 2 := ⟨fuel - 2, by omega⟩
  have hshape : serializeRecordL a b ++ tail
      = '"' :: (a ++ ('"' :: ',' :: ('"' :: (b ++ ('"' :: '\n' :: tail))))) := by
    simp [serializeRecordL, List.append_assoc]
  have hf1 : parseField ('"' :: (a ++ ('"' :: ',' :: ('"' :: (b ++ ('"' :: '\n' :: tail))))))
      = some (a, '"' :: (b ++ ('"' :: '\n' :: tail)), false) := by
    show parseQuoted (a ++ ('"' :: ',' :: ('"' :: (b ++ ('"' :: '\n' :: tail))))) = _
    exact parseQuoted_clean_comma a ha.1 ha.2 _
  have hf2 : parseField ('"' :: (b ++ ('"' :: '\n' :: tail))) = some (b, tail, true) := by
    show parseQuoted (b ++ ('"' :: '\n' :: tail)) = _
    exact parseQuoted_clean_nl b hb.1 hb.2 tail
  show parseRecordAux (n + 1 + 1) (serializeRecordL a b ++ tail) = _
  rw [hshape, parseRecordAux_step_more (n + 1) _ _ _ hf1,
    parseRecordAux_step_end n _ _ _ hf2]

theorem parseRecordAux_header (tail : List Char) (fuel : Nat) (hf : 2 ≤ fuel) :
    parseRecordAux fuel (CSV_HEADER ++ tail)
      = some ([("timestamp").data, ("title").data], tail) := by
  obtain ⟨n, rfl⟩ : ∃ n, fuel = n + 2 := ⟨fuel - 2, by omega⟩
  have hf1 : parseField (CSV_HEADER ++ tail)
      = some (("timestamp").data, ("title\n").data ++ tail, false) := rfl
  have hf2 : parseField (("title\n").data ++ tail) = some (("title").data, tail, true) := rfl
  show parseRecordAux (n + 1 + 1) (CSV_HEADER ++ tail) = _
  rw [parseRecordAux_step_more (n + 1) _ _ _ hf1, parseRecordAux_step_end n _ _ _ hf2]

theorem skipEmptyLines_serialize (a b tail : List Char) :
    skipEmptyLines (serializeRecordL a b ++ tail) = serializeRecordL a b ++ tail := rfl

theorem skipEmptyLines_header (tail : List Char) :
    skipEmptyLines (CSV_HEADER ++ tail) = CSV_HEADER ++ tail := rfl

theorem csvReadAllAux_succ (fuel : Nat) (l : List Char) :
    csvReadAllAux (fuel + 1) l =
      if skipEmptyLines l = [] then some []
      else
        match parseRecordAux ((skipEmptyLines l).length + 1) (skipEmptyLines l) with
        | none => none
        | some (r, rest) =>
          match csvReadAllAux fuel rest with
          | none => none
          | some rs => some (r :: rs) := rfl

theorem csvReadAllAux_lines (rows : List (String × String)) :
    ∀ fuel : Nat, (∀ p ∈ rows, safeStr p.1 ∧ safeStr p.2) → rows.length < fuel →
      csvReadAllAux fuel (linesOf rows) = some (rows.map fun p => [p.1.data, p.2.data]) := by
  induction rows with
  | nil =>
    intro fuel _ hf
    obtain ⟨n, rfl⟩ : ∃ n, fuel = n + 1 := ⟨fuel - 1, by omega⟩
    rfl
  | cons p rest ih =>
    intro fuel hclean hf
    obtain ⟨n, rfl⟩ : ∃ n, fuel = n + 1 := ⟨fuel - 1, by omega⟩
    have hline : linesOf (p :: rest) = serializeRecordL p.1.data p.2.data ++ linesOf rest := by
      simp [linesOf, serializeRecord]
    rw [hline, csvReadAllAux_succ, skipEmptyLines_serialize]
    rw [if_neg (by simp [serializeRecordL])]
    rw [parseRecordAux_line p.1.data p.2.data (hclean p (by simp)).1 (hclean p (by simp)).2
        (linesOf rest) _ (by simp [serializeRecordL])]
    dsimp only
    rw [ih n (fun q hq => hclean q (by simp [hq])) (by simpa using hf)]
    rfl

theorem length_linesOf (rows : List (String × String)) :
    rows.length ≤ (linesOf rows).length := by
  induction rows with
  | nil => simp [linesOf]
  | cons p rest ih =>
    have hline : linesOf (p :: rest) = serializeRecordL p.1.data p.2.data ++ linesOf rest := by
      simp [linesOf, serializeRecord]
    rw [hline]
    simp only [List.length_append, List.length_cons, serializeRecordL]
    omega

theorem csvReadAll_ledger (rows : List (String × String))
    (hclean : ∀ p ∈ rows, safeStr p.1 ∧ safeStr p.2) :
    csvReadAll (ledgerFile rows)
      = some ([("timestamp").data, ("title").data] :: rows.map fun p => [p.1.data, p.2.data]) := by
  unfold csvReadAll ledgerFile
  rw [csvReadAllAux_succ, skipEmptyLines_header]
  rw [if_neg (by simp [CSV_HEADER])]
  rw [parseRecordAux_header (linesOf rows) _ (by simp [CSV_HEADER])]
  dsimp only
  have hlt : rows.length < (CSV_HEADER ++ linesOf rows).length := by
    have := length_linesOf rows
    simp only [List.length_append, CSV_HEADER]
    simp
    omega
  rw [csvReadAllAux_lines rows _ hclean hlt]

theorem recordsFromRows_clean (rows : List (String × String)) :
    (∀ p ∈ rows, (parseTimestampL p.1.data).isSome) →
    ∃ recs : List Record,
      recordsFromRows (rows.map fun p => [p.1.data, p.2.data]) = some recs ∧
      recs.map Record.title = rows.map Prod.snd := by
  induction rows with
  | nil => intro _; exact ⟨[], rfl, rfl⟩
  | cons p rest ih =>
    intro h
    obtain ⟨recs, hr, hm⟩ := ih fun q hq => h q (List.mem_cons_of_mem _ hq)
    obtain ⟨n, hn⟩ := Option.isSome_iff_exists.mp (h p (List.mem_cons_self _ _))
    refine ⟨{ timestamp := n, title := p.2 } :: recs, ?_, ?_⟩
    · simp only [List.map_cons, recordsFromRows, rowToRecord, hn, Option.map_some']
      rw [hr]
    · simp [hm]

theorem getRecords_ledger (rows : List (String × String))
    (hclean : ∀ p ∈ rows, safeStr p.1 ∧ safeStr p.2)
    (hts : ∀ p ∈ rows, (parseTimestampL p.1.data).isSome) :
    ∃ recs : List Record, getRecords (ledgerFile rows) = some recs ∧
      recs.map Record.title = rows.map Prod.snd := by
  obtain ⟨recs, hrecs, hmap⟩ := recordsFromRows_clean rows hts
  refine ⟨recs, ?_, hmap⟩
  unfold getRecords readAllChecked
  rw [csvReadAll_ledger rows hclean]
  dsimp only
  rw [if_pos ?hall]
  case hall =>
    refine List.all_eq_true.mpr ?_
    intro x hx
    obtain ⟨p, _, rfl⟩ := List.mem_map.mp hx
    rfl
  dsimp only
  exact hrecs

/-- C5 counterexample: appending a title consisting of one double-quote
character produces a line `"<now>","""` that Go's CSV reader rejects (the
escaped quote swallows the field's closing quote and the reader hits end of
input inside the field), so the immediate `readAll()` aborts instead of
returning the title: the round trip fails for titles containing double
quotes. -/
theorem roundtrip_fails_on_quote_title :
    getRecords (ledgerFile [] ++ serializeRecord ("2024/03/05 09:15:00") ("\"")) = none := by
  rfl

/-- A title of two double quotes is read back without an error, but
mangled: the unescaped writer emits `"<now>",""""`, whose field body `""`
the reader consumes as one escaped quote, so the title comes back as a
single double quote.  (So not every title containing a double quote makes
the read fail — the single-quote title above does, this one is silently
altered; either way the round trip does not return the appended title.) -/
theorem roundtrip_mangles_two_quote_title :
    getRecords (ledgerFile [] ++ serializeRecord ("2024/03/05 09:15:00") ("\"\""))
      = some [{ timestamp := 63876849300, title := ("\"") }] := by
  rfl

/-- C5 (amended): for every title containing no double-quote character and
no `\r\n` pair, appending it with `start(title)` to a well-formed ledger
and reading back with `readAll()` returns a record list whose last event
carries exactly that title (commas, newlines and lone carriage returns are
fine).  The unrestricted claim is false: `writeTicket` quotes fields
without escaping, so for the title consisting of one double quote the
immediate `readAll()` fails (see the counterexample), and titles with
further quotes or with `\r\n` pairs can come back altered. -/
theorem start_readAll_roundtrip_clean (prior : List (String × String)) (nowStr title : String)
    (hp : ∀ p ∈ prior, (parseTimestamp p.1).isSome ∧ safeStr p.1 ∧ safeStr p.2)
    (hnow : (parseTimestamp nowStr).isSome) (hnowC : safeStr nowStr)
    (htitle : safeStr title) :
    ∃ (recs : List Record) (n : Int),
      getRecords (ledgerFile prior ++ serializeRecord nowStr title) = some recs ∧
      recs.getLast? = some { timestamp := n, title := title } := by
  have hfile : ledgerFile prior ++ serializeRecord nowStr title
      = ledgerFile (prior ++ [(nowStr, title)]) := by
    simp [ledgerFile, linesOf, List.append_assoc]
  rw [hfile]
  have hclean : ∀ p ∈ prior ++ [(nowStr, title)], safeStr p.1 ∧ safeStr p.2 := by
    intro q hq
    rcases List.mem_append.mp hq with h | h
    · exact ⟨(hp q h).2.1, (hp q h).2.2⟩
    · simp at h
      subst h
      exact ⟨hnowC, htitle⟩
  have hts : ∀ p ∈ prior ++ [(nowStr, title)], (parseTimestampL p.1.data).isSome := by
    intro q hq
    rcases List.mem_append.mp hq with h | h
    · exact (hp q h).1
    · simp at h
      subst h
      exact hnow
  obtain ⟨recs, hg, hmap⟩ := getRecords_ledger (prior ++ [(nowStr, title)]) hclean hts
  have h1 : recs.getLast?.map Record.title
      = ((prior ++ [(nowStr, title)]).map Prod.snd).getLast? := by
    rw [← List.getLast?_map]
    exact congrArg List.getLast? hmap
  rw [List.getLast?_map, List.getLast?_concat] at h1
  cases hL : recs.getLast? with
  | none => rw [hL] at h1; simp at h1
  | some r =>
    rw [hL] at h1
    simp only [Option.map_some', Option.some.injEq] at h1
    refine ⟨recs, r.timestamp, hg, ?_⟩
    rw [hL]
    cases r with
    | mk ts t =>
      simp only at h1
      rw [h1]

theorem start_readAll_roundtrip_clean_witness :
    ((parseTimestamp ("2024/03/05 09:15:00")).isSome ∧
      safeStr ("2024/03/05 09:15:00") ∧ safeStr ("A")) ∧
    ∃ (recs : List Record) (n : Int),
      getRecords (ledgerFile [] ++ serializeRecord ("2024/03/05 09:15:00") ("A"))
        = some recs ∧
      recs.getLast? = some { timestamp := n, title := ("A") } :=
  ⟨⟨by decide, by decide, by decide⟩,
   start_readAll_roundtrip_clean [] ("2024/03/05 09:15:00") ("A")
     (by simp) (by decide) (by decide) (by decide)⟩

end Mate
